import Mathlib

/-!
# Verification of `fractal_tree.py`

Shallow embedding of the fractal-tree generator (`src/fractal_tree.py`) and
proofs of the specification's claims about it.

Modelling conventions:
* Python floats are modelled as exact rationals (`ℚ`).  The source computes
  `base_length = sqrt(ta_x**2 + ta_y**2)` and then uses it only in the
  expression `rh * ta / base_length` with `rh = base_length * ROOF_HEIGHT_FACTOR`;
  in exact arithmetic this quotient equals `ROOF_HEIGHT_FACTOR * ta` whenever
  `base_length ≠ 0`, so the rational embedding records exactly that, and the
  equality with the square-root formulation of the spec is proved over `ℝ`
  (`rt_matches_spec`).
* Python's `ZeroDivisionError` (raised by `rh * ta_x / base_length` when
  `base_length == 0.0`, i.e. when `a == b`) is modelled with `Except`.
* The `while` loop of `create_tree` is modelled as a well-founded recursion on
  the pending work-queue, decreasing by the total subtree weight of the queue.
-/

namespace FractalTree

/-- A 2-D point, `(x, y)`; Python's `Tuple[float, float]` in exact arithmetic. -/
abbrev Point := ℚ × ℚ

/-- The only failure the Python source can actually raise during generation:
dividing by a zero `base_length` in `create_new_element`. -/
inductive PyError where
  | zeroDivisionError
deriving DecidableEq, Repr

/-- `ROOF_HEIGHT_FACTOR = 0.33` (src/fractal_tree.py line 10). -/
def ROOF_HEIGHT_FACTOR : ℚ := 33 / 100

/-- `TreeElement` (src/fractal_tree.py lines 15-21): a 7-point polygon and a
depth.  `depth` is a Python `int`, hence `ℤ`. -/
structure TreeElement where
  polygon : List Point
  depth : ℤ
deriving DecidableEq, Repr, Inhabited

/-- `create_new_element` (src/fractal_tree.py lines 24-59).

The source computes `base_length = (ta_x**2 + ta_y**2) ** 0.5`,
`rh = base_length * ROOF_HEIGHT_FACTOR` and the roof-top point
`rt = a + ta + ba * 0.5 + rh * ta / base_length`.  In exact arithmetic
`rh * ta / base_length = ROOF_HEIGHT_FACTOR * ta` whenever `base_length ≠ 0`
(proved against the square-root form in `rt_matches_spec` below), and Python
raises `ZeroDivisionError` when `base_length == 0.0`, which happens exactly
when `ta_x^2 + ta_y^2 = 0`. -/
def create_new_element (a b : Point) (depth : ℤ) : Except PyError TreeElement :=
  -- base axis
  let ba_x := b.1 - a.1
  let ba_y := b.2 - a.2
  -- tangential axis
  let ta_x := -ba_y
  let ta_y := ba_x
  -- "roof" height: base_length = sqrt (ta_x^2 + ta_y^2); the division below
  -- raises ZeroDivisionError exactly when this is zero
  let base_length_sq := ta_x ^ 2 + ta_y ^ 2
  if base_length_sq = 0 then
    .error .zeroDivisionError
  else
    -- "roof top" point; rh * ta / base_length = ROOF_HEIGHT_FACTOR * ta exactly
    let rt_x := a.1 + ta_x + ba_x * (1 / 2) + ROOF_HEIGHT_FACTOR * ta_x
    let rt_y := a.2 + ta_y + ba_y * (1 / 2) + ROOF_HEIGHT_FACTOR * ta_y
    .ok
      { polygon :=
          [ (a.1 + ta_x, a.2 + ta_y),
            a,
            b,
            (b.1 + ta_x, b.2 + ta_y),
            (a.1 + ta_x, a.2 + ta_y),
            (rt_x, rt_y),
            (b.1 + ta_x, b.2 + ta_y) ],
        depth := depth }

/-- A work item of the FIFO `front` list: `(base_a, base_b, depth)`
(src/fractal_tree.py line 76). -/
abbrev WorkItem := Point × Point × ℤ

/-- Python's negative indexing `l[-i]` on the polygon list. -/
def negGet (l : List Point) (i : ℕ) : Point :=
  l.getD (l.length - i) (0, 0)

/-- Weight of one queued item: the number of elements the breadth-first
expansion will still produce from it (`2^((max_depth - depth)⁺ + 1) - 1`).
Used as the termination measure of the loop. -/
def itemWeight (max_depth : ℤ) (d : ℤ) : ℕ :=
  2 ^ ((max_depth - d).toNat + 1) - 1

/-- Total weight of the pending queue; the loop's termination measure. -/
def frontMeasure (max_depth : ℤ) (front : List WorkItem) : ℕ :=
  (front.map fun it => itemWeight max_depth it.2.2).sum

theorem itemWeight_pos (max_depth d : ℤ) : 0 < itemWeight max_depth d := by
  have h : (1 : ℕ) < 2 ^ ((max_depth - d).toNat + 1) := by
    calc (1 : ℕ) < 2 ^ 1 := by norm_num
    _ ≤ 2 ^ ((max_depth - d).toNat + 1) :=
      Nat.pow_le_pow_right (by norm_num) (by omega)
  exact Nat.sub_pos_of_lt h

theorem itemWeight_succ (max_depth d : ℤ) (h : d < max_depth) :
    2 * itemWeight max_depth (d + 1) + 1 = itemWeight max_depth d := by
  unfold itemWeight
  have h1 : (max_depth - d).toNat = (max_depth - (d + 1)).toNat + 1 := by omega
  rw [h1]
  have h2 : (1 : ℕ) ≤ 2 ^ ((max_depth - (d + 1)).toNat + 1) :=
    Nat.one_le_two_pow
  rw [pow_succ]
  omega

theorem frontMeasure_cons (max_depth : ℤ) (a b : Point) (d : ℤ)
    (front : List WorkItem) :
    frontMeasure max_depth ((a, b, d) :: front) =
      itemWeight max_depth d + frontMeasure max_depth front := by
  simp [frontMeasure]

theorem frontMeasure_append (max_depth : ℤ) (xs ys : List WorkItem) :
    frontMeasure max_depth (xs ++ ys) =
      frontMeasure max_depth xs + frontMeasure max_depth ys := by
  simp [frontMeasure]

/-- The `while len(front) != 0` loop of `create_tree`
(src/fractal_tree.py lines 78-95), as a recursion on the FIFO queue:
pop the head, build its element (propagating the Python exception), append it
to the output, and unless `depth >= max_depth` push the two child bases
`(polygon[-3], polygon[-2])` and `(polygon[-2], polygon[-1])` at the back. -/
def create_tree_loop (max_depth : ℤ) (front : List WorkItem) :
    Except PyError (List TreeElement) :=
  match front with
  | [] => .ok []
  | (base_a, base_b, depth) :: rest =>
    match create_new_element base_a base_b depth with
    | .error e => .error e
    | .ok element =>
      if _h : depth ≥ max_depth then
        (create_tree_loop max_depth rest).map (element :: ·)
      else
        let a1 := negGet element.polygon 3
        let b1 := negGet element.polygon 2
        let a2 := negGet element.polygon 2
        let b2 := negGet element.polygon 1
        (create_tree_loop max_depth
            (rest ++ [(a1, b1, depth + 1), (a2, b2, depth + 1)])).map (element :: ·)
termination_by frontMeasure max_depth front
decreasing_by
  · have hw := itemWeight_pos max_depth depth
    simp [frontMeasure]
    omega
  · have h1 := itemWeight_succ max_depth depth (by omega)
    simp [frontMeasure]
    omega

/-- `create_tree` (src/fractal_tree.py lines 62-97): run the breadth-first
loop starting from the single root work item `(a, b, 0)`. -/
def create_tree (a b : Point) (max_depth : ℤ) : Except PyError (List TreeElement) :=
  create_tree_loop max_depth [(a, b, 0)]

/-! ## Closed forms of the geometry, for the proofs -/

/-- The tangential axis `TA = (-BA.y, BA.x)` of the base `(a, b)`. -/
def taOf (a b : Point) : Point :=
  (-(b.2 - a.2), b.1 - a.1)

/-- The roof-top point `RT` of the base `(a, b)`, in exact arithmetic. -/
def rtOf (a b : Point) : Point :=
  (a.1 + (taOf a b).1 + (b.1 - a.1) * (1 / 2) + ROOF_HEIGHT_FACTOR * (taOf a b).1,
   a.2 + (taOf a b).2 + (b.2 - a.2) * (1 / 2) + ROOF_HEIGHT_FACTOR * (taOf a b).2)

/-- The element `create_new_element a b depth` successfully builds
(for a non-degenerate base). -/
def mkElement (a b : Point) (depth : ℤ) : TreeElement :=
  { polygon :=
      [ a + taOf a b, a, b, b + taOf a b, a + taOf a b, rtOf a b, b + taOf a b ],
    depth := depth }

theorem mkElement_polygon_length (a b : Point) (d : ℤ) :
    (mkElement a b d).polygon.length = 7 := rfl

/-- Characterization of `create_new_element`: it raises `ZeroDivisionError`
exactly on a degenerate base, and otherwise returns `mkElement`. -/
theorem create_new_element_eq (a b : Point) (d : ℤ) :
    create_new_element a b d =
      if a = b then .error .zeroDivisionError else .ok (mkElement a b d) := by
  by_cases hab : a = b
  · subst hab
    simp [create_new_element]
  · have hne : ¬(-(b.2 - a.2)) ^ 2 + (b.1 - a.1) ^ 2 = 0 := by
      intro h0
      apply hab
      have h1 : b.1 - a.1 = 0 := by nlinarith [sq_nonneg (b.2 - a.2)]
      have h2 : b.2 - a.2 = 0 := by nlinarith [sq_nonneg (b.1 - a.1)]
      have := Prod.ext_iff.mpr (And.intro (by linarith : a.1 = b.1) (by linarith : a.2 = b.2))
      exact this
    simp only [create_new_element, hne, if_false, if_neg hab, mkElement, taOf, rtOf]
    refine congrArg Except.ok ?_
    refine TreeElement.mk.injEq .. ▸ ⟨?_, rfl⟩
    simp [Prod.ext_iff]

/-- Total projection of a work item to its element. -/
def elemOf (it : WorkItem) : TreeElement :=
  mkElement it.1 it.2.1 it.2.2

/-- A work item with a non-degenerate base (the loop invariant that keeps
`create_new_element` from raising). -/
def Nondeg (it : WorkItem) : Prop :=
  it.1 ≠ it.2.1

/-- The child work items a dequeued item contributes to the queue: none when
its depth reached `max_depth`, and otherwise the two bases
`(polygon[4], polygon[5])` and `(polygon[5], polygon[6])` at depth + 1. -/
def expandItem (max_depth : ℤ) (it : WorkItem) : List WorkItem :=
  if it.2.2 ≥ max_depth then []
  else
    [ (it.1 + taOf it.1 it.2.1, rtOf it.1 it.2.1, it.2.2 + 1),
      (rtOf it.1 it.2.1, it.2.1 + taOf it.1 it.2.1, it.2.2 + 1) ]

/-- Children of a non-degenerate base are non-degenerate: the roof apex never
coincides with either top corner of the quadrilateral. -/
theorem expandItem_nondeg (max_depth : ℤ) (it : WorkItem) (h : Nondeg it) :
    ∀ it' ∈ expandItem max_depth it, Nondeg it' := by
  obtain ⟨a, b, d⟩ := it
  intro it' hmem
  unfold expandItem at hmem
  split at hmem
  · simp at hmem
  · have hab : a ≠ b := h
    simp only [List.mem_cons, List.mem_singleton, List.not_mem_nil, or_false] at hmem
    have hbase : ¬(b.1 - a.1 = 0 ∧ b.2 - a.2 = 0) := by
      intro ⟨h1, h2⟩
      exact hab (Prod.ext_iff.mpr ⟨by linarith, by linarith⟩)
    rcases hmem with h' | h'
    · subst h'
      intro heq
      rw [Prod.ext_iff] at heq
      simp only [Prod.fst_add, Prod.snd_add, taOf, rtOf, ROOF_HEIGHT_FACTOR] at heq
      obtain ⟨h1, h2⟩ := heq
      exact hbase ⟨by linarith, by linarith⟩
    · subst h'
      intro heq
      rw [Prod.ext_iff] at heq
      simp only [Prod.fst_add, Prod.snd_add, taOf, rtOf, ROOF_HEIGHT_FACTOR] at heq
      obtain ⟨h1, h2⟩ := heq
      exact hbase ⟨by linarith, by linarith⟩

/-- One iteration of the loop, for a non-degenerate head item: the element is
appended and the children of `expandItem` (if any) are pushed at the back. -/
theorem create_tree_loop_cons (max_depth : ℤ) (a b : Point) (d : ℤ)
    (rest : List WorkItem) (hab : a ≠ b) :
    create_tree_loop max_depth ((a, b, d) :: rest) =
      (create_tree_loop max_depth (rest ++ expandItem max_depth (a, b, d))).map
        (mkElement a b d :: ·) := by
  rw [create_tree_loop, create_new_element_eq, if_neg hab]
  unfold expandItem
  by_cases hd : d ≥ max_depth
  · simp [hd]
  · simp only [hd, if_false, dif_neg hd]
    refine congrArg (Except.map _) (congrArg _ (congrArg (rest ++ ·) ?_))
    simp [negGet, mkElement]

/-- FIFO composition: processing `xs ++ ys` first emits the elements of `xs`,
with the children of `xs` queued behind `ys`. -/
theorem create_tree_loop_append (max_depth : ℤ) :
    ∀ (xs ys : List WorkItem), (∀ it ∈ xs, Nondeg it) →
      create_tree_loop max_depth (xs ++ ys) =
        (create_tree_loop max_depth
            (ys ++ xs.flatMap (expandItem max_depth))).map (xs.map elemOf ++ ·)
  | [], ys, _ => by
    cases hres : create_tree_loop max_depth ys <;>
      simp [hres, Except.map]
  | (a, b, d) :: xs, ys, h => by
    have hab : a ≠ b := h _ (List.mem_cons_self _ _)
    have hxs : ∀ it ∈ xs, Nondeg it := fun it hit => h it (List.mem_cons_of_mem _ hit)
    rw [List.cons_append, create_tree_loop_cons max_depth a b d (xs ++ ys) hab,
      List.append_assoc,
      create_tree_loop_append max_depth xs (ys ++ expandItem max_depth (a, b, d)) hxs,
      List.append_assoc, ← List.flatMap_cons]
    cases hres :
        create_tree_loop max_depth
          (ys ++ ((a, b, d) :: xs).flatMap (expandItem max_depth)) <;>
      simp [hres, Except.map, elemOf]

/-! ## Level-by-level description of the breadth-first traversal -/

/-- The work items of generation `k`: the root base at level 0, and each next
level obtained by expanding every item of the previous one in order. -/
def levels (max_depth : ℤ) (a b : Point) : ℕ → List WorkItem
  | 0 => [(a, b, 0)]
  | k + 1 => (levels max_depth a b k).flatMap (expandItem max_depth)

theorem levels_depth (max_depth : ℤ) (a b : Point) :
    ∀ (k : ℕ), ∀ it ∈ levels max_depth a b k, it.2.2 = (k : ℤ)
  | 0, it, hit => by
    simp only [levels, List.mem_singleton] at hit
    subst hit; rfl
  | k + 1, it, hit => by
    simp only [levels, List.mem_flatMap] at hit
    obtain ⟨it', hit', hmem⟩ := hit
    have hd' := levels_depth max_depth a b k it' hit'
    unfold expandItem at hmem
    split at hmem
    · simp at hmem
    · simp only [List.mem_cons, List.mem_singleton, List.not_mem_nil, or_false] at hmem
      rcases hmem with h' | h' <;> (subst h'; simp [hd'])

theorem levels_nondeg (max_depth : ℤ) (a b : Point) (hab : a ≠ b) :
    ∀ (k : ℕ), ∀ it ∈ levels max_depth a b k, Nondeg it
  | 0, it, hit => by
    simp only [levels, List.mem_singleton] at hit
    subst hit; exact hab
  | k + 1, it, hit => by
    simp only [levels, List.mem_flatMap] at hit
    obtain ⟨it', hit', hmem⟩ := hit
    exact expandItem_nondeg max_depth it'
      (levels_nondeg max_depth a b hab k it' hit') it hmem

theorem levels_length (max_depth : ℤ) (a b : Point) :
    ∀ (k : ℕ), (k : ℤ) ≤ max_depth → (levels max_depth a b k).length = 2 ^ k
  | 0, _ => rfl
  | k + 1, hk => by
    have hk' : (k : ℤ) ≤ max_depth := by push_cast at hk ⊢; omega
    have ih := levels_length max_depth a b k hk'
    have hexp : ∀ it ∈ levels max_depth a b k,
        ((expandItem max_depth it).length = 2) := by
      intro it hit
      have hd := levels_depth max_depth a b k it hit
      have : ¬ it.2.2 ≥ max_depth := by
        rw [hd]; push_cast at hk; omega
      simp [expandItem, this]
    calc (levels max_depth a b (k + 1)).length
        = ((levels max_depth a b k).map
            (List.length ∘ expandItem max_depth)).sum := by
          simp [levels, List.length_flatMap]
      _ = ((levels max_depth a b k).map (fun _ => 2)).sum := by
          exact congrArg List.sum (List.map_congr_left hexp)
      _ = 2 ^ (k + 1) := by
          rw [List.map_const', List.sum_replicate, ih, smul_eq_mul]
          ring

theorem levels_final (max_depth : ℤ) (a b : Point) (hD : 0 ≤ max_depth) :
    levels max_depth a b (max_depth.toNat + 1) = [] := by
  have hall : ∀ it ∈ levels max_depth a b max_depth.toNat,
      expandItem max_depth it = [] := by
    intro it hit
    have hd := levels_depth max_depth a b max_depth.toNat it hit
    have : it.2.2 ≥ max_depth := by rw [hd]; omega
    simp [expandItem, this]
  simp only [levels]
  rw [List.flatMap_eq_nil_iff.mpr]
  intro l hl
  exact hall l hl

/-- The output of the generator described level by level: the elements of
generation 0, then of generation 1, …, then of generation `max_depth`. -/
def bfsOutput (max_depth : ℤ) (a b : Point) : List TreeElement :=
  ((List.range (max_depth.toNat + 1)).map
      (fun k => (levels max_depth a b k).map elemOf)).flatten

theorem join_range_succ {α : Type} (f : ℕ → List α) (n : ℕ) :
    ((List.range (n + 1)).map f).flatten =
      f 0 ++ ((List.range n).map (f ∘ Nat.succ)).flatten := by
  rw [List.range_succ_eq_map]
  simp [List.map_map]

/-- Running the loop on the whole of generation `k` produces the generations
`k`, `k+1`, …, `max_depth` in order. -/
theorem create_tree_loop_levels (max_depth : ℤ) (a b : Point) (hab : a ≠ b)
    (hD : 0 ≤ max_depth) :
    ∀ (n k : ℕ), k + n = max_depth.toNat + 1 →
      create_tree_loop max_depth (levels max_depth a b k) =
        .ok (((List.range n).map
            (fun i => (levels max_depth a b (k + i)).map elemOf)).flatten)
  | 0, k, hk => by
    have hk' : k = max_depth.toNat + 1 := by omega
    subst hk'
    rw [levels_final max_depth a b hD]
    simp [create_tree_loop]
  | n + 1, k, hk => by
    have hstep : create_tree_loop max_depth (levels max_depth a b k) =
        (create_tree_loop max_depth (levels max_depth a b (k + 1))).map
          ((levels max_depth a b k).map elemOf ++ ·) := by
      have h := create_tree_loop_append max_depth (levels max_depth a b k) []
        (levels_nondeg max_depth a b hab k)
      simpa [levels] using h
    have ih := create_tree_loop_levels max_depth a b hab hD n (k + 1) (by omega)
    rw [hstep, ih]
    have hfs : ((fun i => (levels max_depth a b (k + i)).map elemOf) ∘ Nat.succ) =
        fun i => (levels max_depth a b (k + 1 + i)).map elemOf := by
      funext i
      rw [Function.comp_apply]
      have e : k + Nat.succ i = k + 1 + i := by omega
      rw [e]
    rw [join_range_succ (fun i => (levels max_depth a b (k + i)).map elemOf) n, hfs]
    simp [Except.map]

/-- The generator's full characterization for valid inputs: it succeeds and
returns exactly the level-by-level breadth-first listing. -/
theorem create_tree_eq_bfs (a b : Point) (max_depth : ℤ) (hab : a ≠ b)
    (hD : 0 ≤ max_depth) :
    create_tree a b max_depth = .ok (bfsOutput max_depth a b) := by
  have h := create_tree_loop_levels max_depth a b hab hD (max_depth.toNat + 1) 0
    (by omega)
  have h0 : levels max_depth a b 0 = [(a, b, 0)] := rfl
  rw [h0] at h
  unfold create_tree bfsOutput
  rw [h]
  refine congrArg Except.ok (congrArg List.flatten (List.map_congr_left ?_))
  intro i _
  rw [Nat.zero_add]

theorem sum_range_two_pow (n : ℕ) :
    ((List.range n).map (fun k => 2 ^ k)).sum = 2 ^ n - 1 := by
  induction n with
  | zero => rfl
  | succ n ih =>
    rw [List.range_succ, List.map_append, List.sum_append]
    have h1 : (1 : ℕ) ≤ 2 ^ n := Nat.one_le_two_pow
    simp only [List.map_cons, List.map_nil, List.sum_cons, List.sum_nil, ih]
    rw [pow_succ]
    omega

theorem bfsOutput_length (max_depth : ℤ) (a b : Point) (hD : 0 ≤ max_depth) :
    (bfsOutput max_depth a b).length = 2 ^ (max_depth.toNat + 1) - 1 := by
  unfold bfsOutput
  rw [List.length_flatten, List.map_map]
  have hcong : ∀ k ∈ List.range (max_depth.toNat + 1),
      (List.length ∘ fun k => (levels max_depth a b k).map elemOf) k =
        (fun k => 2 ^ k) k := by
    intro k hk
    rw [List.mem_range] at hk
    have hk' : (k : ℤ) ≤ max_depth := by omega
    simp only [Function.comp_apply, List.length_map]
    exact levels_length max_depth a b k hk'
  rw [List.map_congr_left hcong, sum_range_two_pow]

theorem elemOf_depth (it : WorkItem) : (elemOf it).depth = it.2.2 := rfl

theorem levels_elem_depth (max_depth : ℤ) (a b : Point) (k : ℕ) :
    ∀ e ∈ (levels max_depth a b k).map elemOf, e.depth = (k : ℤ) := by
  intro e he
  rw [List.mem_map] at he
  obtain ⟨it, hit, rfl⟩ := he
  rw [elemOf_depth]
  exact levels_depth max_depth a b k it hit

/-- The head of the output is the root element. -/
theorem bfsOutput_eq_cons (max_depth : ℤ) (a b : Point) :
    bfsOutput max_depth a b =
      mkElement a b 0 ::
        ((List.range max_depth.toNat).map
          ((fun k => (levels max_depth a b k).map elemOf) ∘ Nat.succ)).flatten := by
  rw [bfsOutput, join_range_succ]
  rfl

/-- The depths along the output are non-decreasing. -/
theorem bfsOutput_depth_mono (max_depth : ℤ) (a b : Point) :
    (bfsOutput max_depth a b).Pairwise (fun e e' => e.depth ≤ e'.depth) := by
  unfold bfsOutput
  rw [List.pairwise_flatten]
  constructor
  · intro l hl
    rw [List.mem_map] at hl
    obtain ⟨k, _, rfl⟩ := hl
    have hd := levels_elem_depth max_depth a b k
    apply List.pairwise_of_forall_mem_list
    intro x hx y hy
    rw [hd x hx, hd y hy]
  · rw [List.pairwise_map]
    apply List.Pairwise.imp ?_ (List.pairwise_lt_range _)
    intro k1 k2 hk12 x hx y hy
    rw [levels_elem_depth max_depth a b k1 x hx,
      levels_elem_depth max_depth a b k2 y hy]
    exact_mod_cast Nat.le_of_lt hk12

/-- Exactly `2 ^ k` output elements carry depth `k`, for each `k ≤ max_depth`. -/
theorem bfsOutput_count (max_depth : ℤ) (a b : Point) (hD : 0 ≤ max_depth)
    (k : ℕ) (hk : (k : ℤ) ≤ max_depth) :
    (bfsOutput max_depth a b).countP (fun e => e.depth = (k : ℤ)) = 2 ^ k := by
  unfold bfsOutput
  rw [List.countP_flatten, List.map_map]
  have hcong : ∀ j ∈ List.range (max_depth.toNat + 1),
      (List.countP (fun e => e.depth = (k : ℤ)) ∘
        fun j => (levels max_depth a b j).map elemOf) j =
        (fun j => if j = k then 2 ^ k else 0) j := by
    intro j hj
    rw [List.mem_range] at hj
    simp only [Function.comp_apply]
    by_cases hjk : j = k
    · subst hjk
      rw [if_pos rfl]
      have hall : ∀ e ∈ (levels max_depth a b j).map elemOf,
          (fun e => decide (e.depth = (j : ℤ))) e = true := by
        intro e he
        simpa using levels_elem_depth max_depth a b j e he
      rw [List.countP_eq_length.mpr hall, List.length_map]
      exact levels_length max_depth a b j (by omega)
    · rw [if_neg hjk]
      apply List.countP_eq_zero.mpr
      intro e he
      have := levels_elem_depth max_depth a b j e he
      simp only [this, decide_eq_true_eq]
      intro hc
      exact hjk (by exact_mod_cast hc)
  rw [List.map_congr_left hcong]
  have hsum : ∀ (n : ℕ), k < n →
      ((List.range n).map (fun j => if j = k then 2 ^ k else 0)).sum = 2 ^ k := by
    intro n
    induction n with
    | zero => omega
    | succ n ih =>
      intro hlt
      rw [List.range_succ, List.map_append, List.sum_append]
      by_cases hnk : n = k
      · subst hnk
        have hz : ((List.range n).map (fun j => if j = n then 2 ^ n else 0)).sum = 0 := by
          apply List.sum_eq_zero
          intro x hx
          rw [List.mem_map] at hx
          obtain ⟨j, hj, rfl⟩ := hx
          rw [List.mem_range] at hj
          simp [Nat.ne_of_lt hj]
        simp [hz]
      · have hlt' : k < n := by omega
        rw [ih hlt']
        simp [hnk]
  exact hsum (max_depth.toNat + 1) (by omega)

/-! ## Indexing the output as a complete binary heap -/

theorem flatten_range_split {α : Type} (f : ℕ → List α) :
    ∀ (k n : ℕ), k ≤ n →
      ((List.range n).map f).flatten =
        ((List.range k).map f).flatten ++
          ((List.range (n - k)).map (fun i => f (k + i))).flatten
  | 0, n, _ => by
    simp only [List.range_zero, List.map_nil, List.flatten_nil, List.nil_append,
      Nat.sub_zero, Nat.zero_add]
  | k + 1, n, hk => by
    have ih := flatten_range_split f k n (by omega)
    have hnk : n - k = (n - (k + 1)) + 1 := by omega
    rw [ih, hnk, join_range_succ (fun i => f (k + i)) (n - (k + 1))]
    have hfs : ((fun i => f (k + i)) ∘ Nat.succ) = fun i => f (k + 1 + i) := by
      funext i
      rw [Function.comp_apply]
      have e : k + Nat.succ i = k + 1 + i := by omega
      rw [e]
    rw [hfs, List.range_succ, List.map_append, List.flatten_append]
    simp [List.append_assoc]

theorem blocks_prefix_length (max_depth : ℤ) (a b : Point) (hD : 0 ≤ max_depth)
    (k : ℕ) (hk : k ≤ max_depth.toNat + 1) :
    (((List.range k).map
        (fun j => (levels max_depth a b j).map elemOf)).flatten).length =
      2 ^ k - 1 := by
  rw [List.length_flatten, List.map_map]
  have hcong : ∀ j ∈ List.range k,
      (List.length ∘ fun j => (levels max_depth a b j).map elemOf) j =
        (fun j => 2 ^ j) j := by
    intro j hj
    rw [List.mem_range] at hj
    simp only [Function.comp_apply, List.length_map]
    exact levels_length max_depth a b j (by omega)
  rw [List.map_congr_left hcong, sum_range_two_pow]

theorem flatMap_getD_two {α β : Type} (f : α → List β) (d : α) (d' : β) :
    ∀ (l : List α), (∀ x ∈ l, (f x).length = 2) →
      ∀ (j r : ℕ), j < l.length → r < 2 →
        (l.flatMap f).getD (2 * j + r) d' = (f (l.getD j d)).getD r d'
  | [], _, j, r, hj, _ => by simp at hj
  | x :: l, hf, 0, r, hj, hr => by
    rw [List.flatMap_cons]
    have hx : (f x).length = 2 := hf x (List.mem_cons_self _ _)
    rw [Nat.mul_zero, Nat.zero_add, List.getD_append _ _ _ _ (by omega)]
    rfl
  | x :: l, hf, j + 1, r, hj, hr => by
    rw [List.flatMap_cons]
    have hx : (f x).length = 2 := hf x (List.mem_cons_self _ _)
    have e : 2 * (j + 1) + r = (f x).length + (2 * j + r) := by omega
    rw [e, List.getD_append_right _ _ _ _ (by omega), Nat.add_sub_cancel_left]
    have ih := flatMap_getD_two f d d' l
      (fun y hy => hf y (List.mem_cons_of_mem _ hy)) j r (by simpa using hj) hr
    rw [ih]
    rfl

/-- Every generation below `max_depth` expands with uniform arity 2. -/
theorem levels_expand_arity (max_depth : ℤ) (a b : Point) (k : ℕ)
    (hk : (k : ℤ) < max_depth) :
    ∀ it ∈ levels max_depth a b k, (expandItem max_depth it).length = 2 := by
  intro it hit
  have hd := levels_depth max_depth a b k it hit
  have : ¬ it.2.2 ≥ max_depth := by rw [hd]; omega
  simp [expandItem, this]

/-- The element at heap position `2^k - 1 + j` of the output is the element of
the `j`-th work item of generation `k`. -/
theorem bfsOutput_getD (max_depth : ℤ) (a b : Point) (hD : 0 ≤ max_depth)
    (k j : ℕ) (hk : k ≤ max_depth.toNat) (hj : j < 2 ^ k)
    (dE : TreeElement) (dI : WorkItem) :
    (bfsOutput max_depth a b).getD (2 ^ k - 1 + j) dE =
      elemOf ((levels max_depth a b k).getD j dI) := by
  have hlen : (levels max_depth a b k).length = 2 ^ k :=
    levels_length max_depth a b k (by omega)
  unfold bfsOutput
  rw [flatten_range_split _ k (max_depth.toNat + 1) (by omega)]
  have hpre := blocks_prefix_length max_depth a b hD k (by omega)
  rw [List.getD_append_right _ _ _ _ (by omega), hpre, Nat.add_sub_cancel_left]
  have hsucc : max_depth.toNat + 1 - k = (max_depth.toNat - k) + 1 := by omega
  rw [hsucc, join_range_succ (fun i => (levels max_depth a b (k + i)).map elemOf)]
  have h0 : k + 0 = k := rfl
  rw [h0, List.getD_append _ _ _ _ (by rw [List.length_map, hlen]; omega)]
  rw [List.getD_eq_getElem _ _ (by rw [List.length_map, hlen]; omega),
    List.getD_eq_getElem _ _ (by omega), List.getElem_map]

/-- Every index decomposes as a heap position: a level `k` and an offset
`j < 2^k` with `i = 2^k - 1 + j`. -/
theorem exists_heap_index : ∀ i : ℕ, ∃ k j, j < 2 ^ k ∧ i = 2 ^ k - 1 + j := by
  intro i
  induction i with
  | zero => exact ⟨0, 0, by norm_num, rfl⟩
  | succ i ih =>
    obtain ⟨k, j, hj, rfl⟩ := ih
    by_cases hj1 : j + 1 < 2 ^ k
    · exact ⟨k, j + 1, hj1, by omega⟩
    · refine ⟨k + 1, 0, by positivity, ?_⟩
      have h1 : (1 : ℕ) ≤ 2 ^ k := Nat.one_le_two_pow
      have h2 : 2 ^ (k + 1) = 2 ^ k * 2 := pow_succ 2 k
      omega

/-- The complete-binary-heap law of the output: the elements at positions
`2i+1` and `2i+2` are the two children of the element at position `i` — their
base points are the parent polygon's points 4,5 and 5,6, and their depth is
the parent's plus one. -/
theorem bfsOutput_heap (max_depth : ℤ) (a b : Point)
    (hD : 0 ≤ max_depth) (i : ℕ)
    (hi : 2 * i + 2 < (bfsOutput max_depth a b).length) :
    (((bfsOutput max_depth a b).getD (2 * i + 1) default).polygon.getD 1 (0, 0) =
        ((bfsOutput max_depth a b).getD i default).polygon.getD 4 (0, 0)) ∧
    (((bfsOutput max_depth a b).getD (2 * i + 1) default).polygon.getD 2 (0, 0) =
        ((bfsOutput max_depth a b).getD i default).polygon.getD 5 (0, 0)) ∧
    (((bfsOutput max_depth a b).getD (2 * i + 2) default).polygon.getD 1 (0, 0) =
        ((bfsOutput max_depth a b).getD i default).polygon.getD 5 (0, 0)) ∧
    (((bfsOutput max_depth a b).getD (2 * i + 2) default).polygon.getD 2 (0, 0) =
        ((bfsOutput max_depth a b).getD i default).polygon.getD 6 (0, 0)) ∧
    (((bfsOutput max_depth a b).getD (2 * i + 1) default).depth =
        ((bfsOutput max_depth a b).getD i default).depth + 1) ∧
    (((bfsOutput max_depth a b).getD (2 * i + 2) default).depth =
        ((bfsOutput max_depth a b).getD i default).depth + 1) := by
  obtain ⟨k, j, hj, rfl⟩ := exists_heap_index i
  have hlen := bfsOutput_length max_depth a b hD
  have h2k : (1 : ℕ) ≤ 2 ^ k := Nat.one_le_two_pow
  have h2k1 : 2 ^ (k + 1) = 2 ^ k * 2 := pow_succ 2 k
  have hkk : k + 1 ≤ max_depth.toNat := by
    by_contra hcon
    have hge : max_depth.toNat + 1 ≤ k + 1 := by omega
    have hpow : 2 ^ (max_depth.toNat + 1) ≤ 2 ^ (k + 1) :=
      Nat.pow_le_pow_right (by norm_num) hge
    rw [hlen] at hi
    omega
  have hidx1 : 2 * (2 ^ k - 1 + j) + 1 = 2 ^ (k + 1) - 1 + 2 * j := by omega
  have hidx2 : 2 * (2 ^ k - 1 + j) + 2 = 2 ^ (k + 1) - 1 + (2 * j + 1) := by omega
  have hparent := bfsOutput_getD max_depth a b hD k j (by omega) hj default default
  have hchild1 := bfsOutput_getD max_depth a b hD (k + 1) (2 * j) hkk (by omega)
    default default
  have hchild2 := bfsOutput_getD max_depth a b hD (k + 1) (2 * j + 1) hkk (by omega)
    default default
  have hlenk : (levels max_depth a b k).length = 2 ^ k :=
    levels_length max_depth a b k (by omega)
  have harity := levels_expand_arity max_depth a b k (by omega)
  have hlevel : levels max_depth a b (k + 1) =
      (levels max_depth a b k).flatMap (expandItem max_depth) := rfl
  have hc1 : (levels max_depth a b (k + 1)).getD (2 * j) default =
      (expandItem max_depth ((levels max_depth a b k).getD j default)).getD 0
        default := by
    rw [hlevel]
    have h := flatMap_getD_two (expandItem max_depth) default default
      (levels max_depth a b k) harity j 0 (by omega) (by omega)
    simpa using h
  have hc2 : (levels max_depth a b (k + 1)).getD (2 * j + 1) default =
      (expandItem max_depth ((levels max_depth a b k).getD j default)).getD 1
        default := by
    rw [hlevel]
    exact flatMap_getD_two (expandItem max_depth) default default
      (levels max_depth a b k) harity j 1 (by omega) (by omega)
  set item := (levels max_depth a b k).getD j default with hitem
  have hmem : item ∈ levels max_depth a b k := by
    rw [hitem, List.getD_eq_getElem _ _ (by omega)]
    exact List.getElem_mem _
  have hdep : item.2.2 = (k : ℤ) := levels_depth max_depth a b k item hmem
  have hnotge : ¬ item.2.2 ≥ max_depth := by rw [hdep]; omega
  have hexp : expandItem max_depth item =
      [ (item.1 + taOf item.1 item.2.1, rtOf item.1 item.2.1, item.2.2 + 1),
        (rtOf item.1 item.2.1, item.2.1 + taOf item.1 item.2.1, item.2.2 + 1) ] := by
    simp [expandItem, hnotge]
  rw [hidx1, hidx2, hparent, hchild1, hchild2, hc1, hc2, hexp]
  simp [elemOf, mkElement]

/-! ## Behaviour on a negative `max_depth` -/

/-- With a negative `max_depth` the root is popped, `0 >= max_depth` holds at
once, nothing is enqueued, and the loop returns just the root element. -/
theorem create_tree_neg (a b : Point) (max_depth : ℤ) (hab : a ≠ b)
    (hD : max_depth < 0) :
    create_tree a b max_depth = .ok [mkElement a b 0] := by
  unfold create_tree
  rw [create_tree_loop_cons max_depth a b 0 [] hab]
  have hexp : expandItem max_depth ((a : Point), b, (0 : ℤ)) = [] := by
    have : (0 : ℤ) ≥ max_depth := by omega
    simp [expandItem, this]
  rw [hexp]
  simp [create_tree_loop, Except.map]

/-! ## Number of loop iterations -/

/-- The number of iterations (pops) the `while` loop of `create_tree`
executes, mirroring `create_tree_loop` exactly; a pop that raises
`ZeroDivisionError` is the final iteration. -/
def create_tree_steps (max_depth : ℤ) (front : List WorkItem) : ℕ :=
  match front with
  | [] => 0
  | (base_a, base_b, depth) :: rest =>
    match create_new_element base_a base_b depth with
    | .error _ => 1
    | .ok element =>
      if _h : depth ≥ max_depth then
        1 + create_tree_steps max_depth rest
      else
        1 + create_tree_steps max_depth
          (rest ++ [(negGet element.polygon 3, negGet element.polygon 2, depth + 1),
                    (negGet element.polygon 2, negGet element.polygon 1, depth + 1)])
termination_by frontMeasure max_depth front
decreasing_by
  · have hw := itemWeight_pos max_depth depth
    simp [frontMeasure]
    omega
  · have h1 := itemWeight_succ max_depth depth (by omega)
    simp [frontMeasure]
    omega

/-- The loop runs at most `frontMeasure` many iterations. -/
theorem create_tree_steps_le (max_depth : ℤ) : ∀ front : List WorkItem,
    create_tree_steps max_depth front ≤ frontMeasure max_depth front
  | [] => by
    rw [create_tree_steps]
    exact Nat.zero_le _
  | (a, b, d) :: rest => by
    have hw := itemWeight_pos max_depth d
    rw [create_tree_steps, frontMeasure_cons]
    cases hc : create_new_element a b d with
    | error e =>
      simp only []
      omega
    | ok element =>
      simp only []
      by_cases hd : d ≥ max_depth
      · rw [dif_pos hd]
        have h1 := create_tree_steps_le max_depth rest
        omega
      · rw [dif_neg hd]
        have h1 := create_tree_steps_le max_depth
          (rest ++ [(negGet element.polygon 3, negGet element.polygon 2, d + 1),
                    (negGet element.polygon 2, negGet element.polygon 1, d + 1)])
        have h2 := itemWeight_succ max_depth d (by omega)
        rw [frontMeasure_append] at h1
        have h3 : frontMeasure max_depth
            [(negGet element.polygon 3, negGet element.polygon 2, d + 1),
             (negGet element.polygon 2, negGet element.polygon 1, d + 1)] =
            itemWeight max_depth (d + 1) + itemWeight max_depth (d + 1) := by
          simp [frontMeasure]
        omega
termination_by front => frontMeasure max_depth front
decreasing_by
  · simp [frontMeasure]
    omega
  · have h1 := itemWeight_succ max_depth d (by omega)
    simp [frontMeasure]
    omega

/-- The root queue's measure is the closed-form iteration bound. -/
theorem frontMeasure_root (max_depth : ℤ) (a b : Point) :
    frontMeasure max_depth [(a, b, 0)] = 2 ^ (max_depth.toNat + 1) - 1 := by
  simp [frontMeasure, itemWeight]

/-! ## The roof apex against the spec's square-root formulation -/

/-- The roof apex exactly as the spec words it, over the reals:
`RT = A + TA + 0.5*BA + rh * TA / base_length` with
`base_length = sqrt(ta_x^2 + ta_y^2)` and `rh = base_length * 0.33`.
This is the claim-side definition, to be compared with the rational `rtOf`
extracted from the source. -/
noncomputable def rtSpec (A B : Point) : ℝ × ℝ :=
  let ba_x : ℝ := (B.1 : ℝ) - (A.1 : ℝ)
  let ba_y : ℝ := (B.2 : ℝ) - (A.2 : ℝ)
  let ta_x : ℝ := -ba_y
  let ta_y : ℝ := ba_x
  let base_length : ℝ := Real.sqrt (ta_x ^ 2 + ta_y ^ 2)
  let rh : ℝ := base_length * (33 / 100)
  ((A.1 : ℝ) + ta_x + ba_x * (1 / 2) + rh * ta_x / base_length,
   (A.2 : ℝ) + ta_y + ba_y * (1 / 2) + rh * ta_y / base_length)

/-- For a non-degenerate base, the source's exact-arithmetic roof apex agrees
with the spec's square-root formula. -/
theorem rt_matches_spec (A B : Point) (hab : A ≠ B) :
    ((rtOf A B).1 : ℝ) = (rtSpec A B).1 ∧ ((rtOf A B).2 : ℝ) = (rtSpec A B).2 := by
  have hne : ¬(A.1 = B.1 ∧ A.2 = B.2) := by
    intro ⟨h1, h2⟩
    exact hab (Prod.ext_iff.mpr ⟨h1, h2⟩)
  have hsum : (0 : ℝ) <
      (-((B.2 : ℝ) - (A.2 : ℝ))) ^ 2 + ((B.1 : ℝ) - (A.1 : ℝ)) ^ 2 := by
    rcases not_and_or.mp hne with h1 | h2
    · have hx : ((B.1 : ℝ) - (A.1 : ℝ)) ≠ 0 := by
        rw [sub_ne_zero]
        exact_mod_cast Ne.symm h1
      have hx2 : (0 : ℝ) < ((B.1 : ℝ) - (A.1 : ℝ)) ^ 2 :=
        lt_of_le_of_ne (sq_nonneg _) (Ne.symm (pow_ne_zero 2 hx))
      nlinarith [sq_nonneg (-((B.2 : ℝ) - (A.2 : ℝ)))]
    · have hy : (-((B.2 : ℝ) - (A.2 : ℝ))) ≠ 0 := by
        rw [neg_ne_zero, sub_ne_zero]
        exact_mod_cast Ne.symm h2
      have hy2 : (0 : ℝ) < (-((B.2 : ℝ) - (A.2 : ℝ))) ^ 2 :=
        lt_of_le_of_ne (sq_nonneg _) (Ne.symm (pow_ne_zero 2 hy))
      nlinarith [sq_nonneg ((B.1 : ℝ) - (A.1 : ℝ))]
  have hlen : Real.sqrt
      ((-((B.2 : ℝ) - (A.2 : ℝ))) ^ 2 + ((B.1 : ℝ) - (A.1 : ℝ)) ^ 2) ≠ 0 :=
    (Real.sqrt_pos.mpr hsum).ne'
  have hlen2 : Real.sqrt
      (((A.2 : ℝ) - (B.2 : ℝ)) ^ 2 + ((B.1 : ℝ) - (A.1 : ℝ)) ^ 2) ≠ 0 := by
    have he : ((A.2 : ℝ) - (B.2 : ℝ)) ^ 2 = (-((B.2 : ℝ) - (A.2 : ℝ))) ^ 2 := by
      ring
    rw [he]
    exact hlen
  constructor <;>
  · simp only [rtSpec, rtOf, taOf, ROOF_HEIGHT_FACTOR]
    push_cast
    field_simp [hlen2]
    ring

/-! ## The claims -/

/-- Claim C1: for every pair of distinct points `a, b` and every integer
`max_depth D ≥ 0`, `create_tree a b D` returns a sequence of exactly
`2^(D+1) - 1` elements. -/
theorem claim_C1 (a b : Point) (D : ℤ) (hab : a ≠ b) (hD : 0 ≤ D) :
    ∃ l, create_tree a b D = .ok l ∧ l.length = 2 ^ (D.toNat + 1) - 1 :=
  ⟨bfsOutput D a b, create_tree_eq_bfs a b D hab hD, bfsOutput_length D a b hD⟩

theorem claim_C1_witness :
    ((0 : ℚ), (0 : ℚ)) ≠ ((1 : ℚ), (0 : ℚ)) ∧ (0 : ℤ) ≤ 2 ∧
      ∃ l, create_tree (0, 0) (1, 0) 2 = .ok l ∧
        l.length = 2 ^ ((2 : ℤ).toNat + 1) - 1 :=
  ⟨by decide, by decide, claim_C1 (0, 0) (1, 0) 2 (by decide) (by decide)⟩

/-- Claim C2: for distinct `A, B` and any depth `d`,
`create_new_element A B d` returns an element whose polygon is exactly
`[A+TA, A, B, B+TA, A+TA, RT, B+TA]` with `TA = (-BA.y, BA.x)` and
`RT = A + TA + 0.5*BA + rh*TA/|TA|`, `rh = |TA| * 0.33` (the square-root
formulation is `rtSpec`), and whose depth field is `d`. -/
theorem claim_C2 (A B : Point) (d : ℤ) (hab : A ≠ B) :
    ∃ e, create_new_element A B d = .ok e ∧
      e.polygon = [A + taOf A B, A, B, B + taOf A B, A + taOf A B, rtOf A B,
        B + taOf A B] ∧
      e.depth = d ∧
      ((rtOf A B).1 : ℝ) = (rtSpec A B).1 ∧
      ((rtOf A B).2 : ℝ) = (rtSpec A B).2 := by
  refine ⟨mkElement A B d, ?_, rfl, rfl, (rt_matches_spec A B hab).1,
    (rt_matches_spec A B hab).2⟩
  rw [create_new_element_eq, if_neg hab]

theorem claim_C2_witness :
    ((0 : ℚ), (0 : ℚ)) ≠ ((10 : ℚ), (0 : ℚ)) ∧
      ∃ e, create_new_element ((0 : ℚ), (0 : ℚ)) (10, 0) 0 = .ok e ∧
        e.polygon = [((0 : ℚ), (0 : ℚ)) + taOf (0, 0) (10, 0), (0, 0), (10, 0),
          ((10 : ℚ), (0 : ℚ)) + taOf (0, 0) (10, 0),
          ((0 : ℚ), (0 : ℚ)) + taOf (0, 0) (10, 0), rtOf (0, 0) (10, 0),
          ((10 : ℚ), (0 : ℚ)) + taOf (0, 0) (10, 0)] ∧
        e.depth = 0 ∧
        ((rtOf ((0 : ℚ), (0 : ℚ)) (10, 0)).1 : ℝ) = (rtSpec (0, 0) (10, 0)).1 ∧
        ((rtOf ((0 : ℚ), (0 : ℚ)) (10, 0)).2 : ℝ) = (rtSpec (0, 0) (10, 0)).2 :=
  ⟨by decide, claim_C2 (0, 0) (10, 0) 0 (by decide)⟩

/-- Claim C3: when a dequeued item `(a, b, d)` has `d < max_depth`, exactly
the two child work items `(polygon[4], polygon[5], d+1)` and
`(polygon[5], polygon[6], d+1)` are enqueued at the back, in that order; when
`d ≥ max_depth` nothing is enqueued for it. -/
theorem claim_C3 (a b : Point) (d D : ℤ) (rest : List WorkItem)
    (e : TreeElement) (he : create_new_element a b d = .ok e) :
    (d < D →
      create_tree_loop D ((a, b, d) :: rest) =
        (create_tree_loop D
            (rest ++ [(e.polygon.getD 4 (0, 0), e.polygon.getD 5 (0, 0), d + 1),
                      (e.polygon.getD 5 (0, 0), e.polygon.getD 6 (0, 0), d + 1)])).map
          (e :: ·)) ∧
    (D ≤ d →
      create_tree_loop D ((a, b, d) :: rest) =
        (create_tree_loop D rest).map (e :: ·)) := by
  have hab : a ≠ b := by
    intro hh
    rw [create_new_element_eq, if_pos hh] at he
    cases he
  have hee : e = mkElement a b d := by
    rw [create_new_element_eq, if_neg hab] at he
    injection he with h
    exact h.symm
  subst hee
  constructor
  · intro hdD
    rw [create_tree_loop_cons D a b d rest hab]
    have hnot : ¬((a, b, d) : WorkItem).2.2 ≥ D := by simp; omega
    have hexp : expandItem D (a, b, d) =
        [((mkElement a b d).polygon.getD 4 (0, 0),
          (mkElement a b d).polygon.getD 5 (0, 0), d + 1),
         ((mkElement a b d).polygon.getD 5 (0, 0),
          (mkElement a b d).polygon.getD 6 (0, 0), d + 1)] := by
      simp [expandItem, hnot, mkElement]
    rw [hexp]
  · intro hDd
    rw [create_tree_loop_cons D a b d rest hab]
    have hpos : ((a, b, d) : WorkItem).2.2 ≥ D := hDd
    have hexp : expandItem D (a, b, d) = [] := by
      simp [expandItem, hpos]
    rw [hexp, List.append_nil]

theorem claim_C3_witness :
    create_new_element ((0 : ℚ), (0 : ℚ)) ((1 : ℚ), (0 : ℚ)) 0 =
        .ok (mkElement (0, 0) (1, 0) 0) ∧
      (((0 : ℤ) < 1 →
        create_tree_loop 1 [(((0 : ℚ), (0 : ℚ)), ((1 : ℚ), (0 : ℚ)), (0 : ℤ))] =
          (create_tree_loop 1
              ([] ++ [((mkElement (0, 0) (1, 0) 0).polygon.getD 4 (0, 0),
                       (mkElement (0, 0) (1, 0) 0).polygon.getD 5 (0, 0), 0 + 1),
                      ((mkElement (0, 0) (1, 0) 0).polygon.getD 5 (0, 0),
                       (mkElement (0, 0) (1, 0) 0).polygon.getD 6 (0, 0), 0 + 1)])).map
            (mkElement (0, 0) (1, 0) 0 :: ·)) ∧
      ((1 : ℤ) ≤ 0 →
        create_tree_loop 1 [(((0 : ℚ), (0 : ℚ)), ((1 : ℚ), (0 : ℚ)), (0 : ℤ))] =
          (create_tree_loop 1 []).map (mkElement (0, 0) (1, 0) 0 :: ·))) :=
  ⟨by rw [create_new_element_eq, if_neg (by decide)],
    claim_C3 (0, 0) (1, 0) 0 1 [] (mkElement (0, 0) (1, 0) 0)
      (by rw [create_new_element_eq, if_neg (by decide)])⟩

/-- Claim C4: for valid inputs the output is non-empty, its first element has
depth 0, and depths are non-decreasing along the output sequence. -/
theorem claim_C4 (a b : Point) (D : ℤ) (hab : a ≠ b) (hD : 0 ≤ D) :
    ∃ l, create_tree a b D = .ok l ∧ l ≠ [] ∧
      (l.getD 0 default).depth = 0 ∧
      l.Pairwise (fun e e' => e.depth ≤ e'.depth) := by
  refine ⟨bfsOutput D a b, create_tree_eq_bfs a b D hab hD, ?_, ?_,
    bfsOutput_depth_mono D a b⟩
  · rw [bfsOutput_eq_cons]
    exact List.cons_ne_nil _ _
  · rw [bfsOutput_eq_cons]
    rfl

theorem claim_C4_witness :
    ((0 : ℚ), (0 : ℚ)) ≠ ((1 : ℚ), (0 : ℚ)) ∧ (0 : ℤ) ≤ 1 ∧
      ∃ l, create_tree (0, 0) (1, 0) 1 = .ok l ∧ l ≠ [] ∧
        (l.getD 0 default).depth = 0 ∧
        l.Pairwise (fun e e' => e.depth ≤ e'.depth) :=
  ⟨by decide, by decide, claim_C4 (0, 0) (1, 0) 1 (by decide) (by decide)⟩

/-- Claim C5: for valid inputs and every `k` with `0 ≤ k ≤ D`, exactly `2^k`
output elements have depth `k`. -/
theorem claim_C5 (a b : Point) (D : ℤ) (hab : a ≠ b) (hD : 0 ≤ D) (k : ℕ)
    (hk : (k : ℤ) ≤ D) :
    ∃ l, create_tree a b D = .ok l ∧
      l.countP (fun e => e.depth = (k : ℤ)) = 2 ^ k :=
  ⟨bfsOutput D a b, create_tree_eq_bfs a b D hab hD,
    bfsOutput_count D a b hD k hk⟩

theorem claim_C5_witness :
    ((0 : ℚ), (0 : ℚ)) ≠ ((1 : ℚ), (0 : ℚ)) ∧ (0 : ℤ) ≤ 2 ∧ ((1 : ℕ) : ℤ) ≤ 2 ∧
      ∃ l, create_tree (0, 0) (1, 0) 2 = .ok l ∧
        l.countP (fun e => e.depth = ((1 : ℕ) : ℤ)) = 2 ^ (1 : ℕ) :=
  ⟨by decide, by decide, by decide,
    claim_C5 (0, 0) (1, 0) 2 (by decide) (by decide) 1 (by decide)⟩

/-- Claim C6: the code does fail on a degenerate base, but with Python's
`ZeroDivisionError` (the unguarded division by `base_length = 0`), not with
an `InvalidGeometry` error as the claim and spec require; the spec itself
calls the unguarded behaviour a latent defect.  This theorem evaluates the
code at the failing inputs. -/
theorem claim_C6 (a : Point) (d D : ℤ) :
    create_new_element a a d = .error .zeroDivisionError ∧
    create_tree a a D = .error .zeroDivisionError := by
  have h1 : ∀ d' : ℤ, create_new_element a a d' = .error .zeroDivisionError := by
    intro d'
    rw [create_new_element_eq, if_pos rfl]
  refine ⟨h1 d, ?_⟩
  unfold create_tree
  rw [create_tree_loop, h1 0]

/-- Claim C7 counterexample: `create_tree` with `max_depth = -1` does not
fail; it returns a single (root) element. -/
theorem claim_C7_counterexample :
    create_tree ((0 : ℚ), (0 : ℚ)) ((1 : ℚ), (0 : ℚ)) (-1) =
      .ok [mkElement (0, 0) (1, 0) 0] :=
  create_tree_neg (0, 0) (1, 0) (-1) (by decide) (by decide)

/-- Claim C7 (amended): for distinct points and a negative `max_depth`,
`create_tree` raises no error and returns exactly one element — the code
never checks `max_depth < 0`. -/
theorem claim_C7_amended (a b : Point) (D : ℤ) (hab : a ≠ b) (hD : D < 0) :
    ∃ l, create_tree a b D = .ok l ∧ l.length = 1 :=
  ⟨[mkElement a b 0], create_tree_neg a b D hab hD, rfl⟩

theorem claim_C7_witness :
    ((0 : ℚ), (0 : ℚ)) ≠ ((2 : ℚ), (0 : ℚ)) ∧ (-2 : ℤ) < 0 ∧
      ∃ l, create_tree (0, 0) (2, 0) (-2) = .ok l ∧ l.length = 1 :=
  ⟨by decide, by decide, claim_C7_amended (0, 0) (2, 0) (-2) (by decide) (by decide)⟩

/-- Claim C8: the loop always terminates (`create_tree_loop` and
`create_tree_steps` are total by well-founded recursion on `frontMeasure`);
for `max_depth ≥ 0` it executes at most `2^(max_depth+1) - 1` iterations, and
for a non-degenerate base it runs to completion (the queue empties and a
result is returned). -/
theorem claim_C8 (a b : Point) (D : ℤ) :
    (0 ≤ D → create_tree_steps D [(a, b, 0)] ≤ 2 ^ (D.toNat + 1) - 1) ∧
    (a ≠ b → ∃ l, create_tree a b D = .ok l) := by
  constructor
  · intro _hD
    have h := create_tree_steps_le D [(a, b, 0)]
    rw [frontMeasure_root] at h
    exact h
  · intro hab
    by_cases hD : 0 ≤ D
    · exact ⟨bfsOutput D a b, create_tree_eq_bfs a b D hab hD⟩
    · exact ⟨[mkElement a b 0], create_tree_neg a b D hab (by omega)⟩

theorem claim_C8_witness :
    create_tree_steps 2 [(((0 : ℚ), (0 : ℚ)), ((1 : ℚ), (0 : ℚ)), (0 : ℤ))] ≤
        2 ^ ((2 : ℤ).toNat + 1) - 1 ∧
      ∃ l, create_tree ((0 : ℚ), (0 : ℚ)) ((1 : ℚ), (0 : ℚ)) 2 = .ok l :=
  ⟨(claim_C8 (0, 0) (1, 0) 2).1 (by decide), (claim_C8 (0, 0) (1, 0) 2).2 (by decide)⟩

/-- Claim C9: for distinct points and any negative `max_depth`, `create_tree`
raises no error and returns exactly the root element
`create_new_element a b 0`, whose depth is 0. -/
theorem claim_C9 (a b : Point) (D : ℤ) (hab : a ≠ b) (hD : D < 0) :
    ∃ e, create_new_element a b 0 = .ok e ∧ create_tree a b D = .ok [e] ∧
      e.depth = 0 := by
  refine ⟨mkElement a b 0, ?_, create_tree_neg a b D hab hD, rfl⟩
  rw [create_new_element_eq, if_neg hab]

theorem claim_C9_witness :
    ((0 : ℚ), (0 : ℚ)) ≠ ((3 : ℚ), (0 : ℚ)) ∧ (-1 : ℤ) < 0 ∧
      ∃ e, create_new_element ((0 : ℚ), (0 : ℚ)) (3, 0) 0 = .ok e ∧
        create_tree (0, 0) (3, 0) (-1) = .ok [e] ∧ e.depth = 0 :=
  ⟨by decide, by decide, claim_C9 (0, 0) (3, 0) (-1) (by decide) (by decide)⟩

/-- Claim C10: for valid inputs the output is a complete binary heap: for
every `i` with `2i+2` a valid index, the elements at `2i+1` and `2i+2` have
base points (their polygon points 1 and 2) equal to the parent's polygon
points 4,5 and 5,6 respectively, and depth one more than the parent's. -/
theorem claim_C10 (a b : Point) (D : ℤ) (hab : a ≠ b) (hD : 0 ≤ D) :
    ∃ l, create_tree a b D = .ok l ∧
      ∀ i : ℕ, 2 * i + 2 < l.length →
        ((l.getD (2 * i + 1) default).polygon.getD 1 (0, 0) =
            (l.getD i default).polygon.getD 4 (0, 0)) ∧
        ((l.getD (2 * i + 1) default).polygon.getD 2 (0, 0) =
            (l.getD i default).polygon.getD 5 (0, 0)) ∧
        ((l.getD (2 * i + 2) default).polygon.getD 1 (0, 0) =
            (l.getD i default).polygon.getD 5 (0, 0)) ∧
        ((l.getD (2 * i + 2) default).polygon.getD 2 (0, 0) =
            (l.getD i default).polygon.getD 6 (0, 0)) ∧
        ((l.getD (2 * i + 1) default).depth = (l.getD i default).depth + 1) ∧
        ((l.getD (2 * i + 2) default).depth = (l.getD i default).depth + 1) :=
  ⟨bfsOutput D a b, create_tree_eq_bfs a b D hab hD,
    fun i hi => bfsOutput_heap D a b hD i hi⟩

theorem claim_C10_witness :
    ((0 : ℚ), (0 : ℚ)) ≠ ((1 : ℚ), (0 : ℚ)) ∧ (0 : ℤ) ≤ 1 ∧
      ∃ l, create_tree (0, 0) (1, 0) 1 = .ok l ∧
        ∀ i : ℕ, 2 * i + 2 < l.length →
          ((l.getD (2 * i + 1) default).polygon.getD 1 (0, 0) =
              (l.getD i default).polygon.getD 4 (0, 0)) ∧
          ((l.getD (2 * i + 1) default).polygon.getD 2 (0, 0) =
              (l.getD i default).polygon.getD 5 (0, 0)) ∧
          ((l.getD (2 * i + 2) default).polygon.getD 1 (0, 0) =
              (l.getD i default).polygon.getD 5 (0, 0)) ∧
          ((l.getD (2 * i + 2) default).polygon.getD 2 (0, 0) =
              (l.getD i default).polygon.getD 6 (0, 0)) ∧
          ((l.getD (2 * i + 1) default).depth = (l.getD i default).depth + 1) ∧
          ((l.getD (2 * i + 2) default).depth = (l.getD i default).depth + 1) :=
  ⟨by decide, by decide, claim_C10 (0, 0) (1, 0) 1 (by decide) (by decide)⟩

end FractalTree
